import Mathlib

/-! Verification development for the autoincrement index subsystem implemented in
`src/solana/src/objects/record/index.rs`.

The counter map `NautilusIndexData.index : HashMap<String, u32>` is modeled as an
association list with pairwise-distinct keys; a table name (`String`) is represented
by its UTF-8 byte sequence, and a `u32` counter value by a `Nat` kept below `2 ^ 32`
(the source's `u32` arithmetic is modeled with an explicit `% 2 ^ 32`, the behavior
of the default release profile where `u32` addition wraps). -/

/-- A table name: the UTF-8 byte sequence of the Rust `String` key. -/
abbrev TableKey := List Nat

/-- Logical content of `NautilusIndexData.index : HashMap<String, u32>` (index.rs line 21):
an association list with pairwise-distinct keys. Any Lean value of this type with
`Nodup` keys represents exactly one hash-map state. -/
abbrev IndexMap := List (TableKey × Nat)

/-- Model of `NautilusIndexData::get_count` (index.rs lines 26-28), i.e. `HashMap::get`:
the value at the first (unique, when keys are nodup) matching key. -/
def getCount : IndexMap → TableKey → Option Nat
  | [], _ => none
  | (k, v) :: rest, t => if k = t then some v else getCount rest t

/-- Model of `NautilusIndexData::get_next_count` (index.rs lines 31-36): `count + 1`
in `u32` if the table is present, else `1`. -/
def getNextCount (m : IndexMap) (t : TableKey) : Nat :=
  match getCount m t with
  | some c => (c + 1) % 2 ^ 32
  | none => 1

/-- Model of `HashMap::insert` (and of the in-place `*count += 1` update): overwrite the
value at an existing key, or add a binding for an absent key. -/
def mapInsert : IndexMap → TableKey → Nat → IndexMap
  | [], k, v => [(k, v)]
  | (k', v') :: rest, k, v =>
    if k' = k then (k', v) :: rest else (k', v') :: mapInsert rest k v

/-- Model of `NautilusIndexData::add_record` (index.rs lines 39-50): if the table is
present, increment its `u32` count in place and return the new value; otherwise insert
`1` and return `1`. Returns `(returned count, updated map)`. -/
def addRecordData (m : IndexMap) (t : TableKey) : Nat × IndexMap :=
  match getCount m t with
  | some c => ((c + 1) % 2 ^ 32, mapInsert m t ((c + 1) % 2 ^ 32))
  | none => (1, mapInsert m t 1)

/-- State reached from map `m` after a sequence of `add_record` calls, one per list
element (the element is the table name passed to the call). -/
def applyCalls (m : IndexMap) (s : List TableKey) : IndexMap :=
  s.foldl (fun acc t => (addRecordData acc t).2) m

/-- State reached from the empty counter map after a sequence of `add_record` calls. -/
def applySeq (s : List TableKey) : IndexMap :=
  applyCalls [] s

/-- Number of occurrences of table `t` in a call sequence. -/
def occCount : List TableKey → TableKey → Nat
  | [], _ => 0
  | x :: s, t => (if x = t then 1 else 0) + occCount s t

/-- Value returned by the k-th `add_record T` call (k ≥ 1) in a run that calls
`add_record T` repeatedly starting from the empty map. -/
def nthReturn (t : TableKey) (k : Nat) : Nat :=
  (addRecordData (applySeq (List.replicate (k - 1) t)) t).1

/-- Concrete table name used in concrete instances: the byte string "t". -/
def exTable : TableKey := [116]

theorem getCount_mapInsert_self (m : IndexMap) (k : TableKey) (v : Nat) :
    getCount (mapInsert m k v) k = some v := by
  induction m with
  | nil => simp [mapInsert, getCount]
  | cons e rest ih =>
    obtain ⟨k', v'⟩ := e
    by_cases h : k' = k
    · subst h; simp [mapInsert, getCount]
    · simp [mapInsert, getCount, h, ih]

theorem getCount_mapInsert_ne (m : IndexMap) (k u : TableKey) (v : Nat) (h : u ≠ k) :
    getCount (mapInsert m k v) u = getCount m u := by
  induction m with
  | nil => simp [mapInsert, getCount, Ne.symm h]
  | cons e rest ih =>
    obtain ⟨k', v'⟩ := e
    by_cases hk : k' = k
    · subst hk; simp [mapInsert, getCount, Ne.symm h]
    · simp [mapInsert, getCount, hk, ih]

theorem addRecordData_fst (m : IndexMap) (t : TableKey) :
    (addRecordData m t).1 = ((getCount m t).getD 0 + 1) % 2 ^ 32 := by
  cases h : getCount m t <;> simp [addRecordData, h]

theorem getCount_addRecordData_self (m : IndexMap) (t : TableKey) :
    getCount (addRecordData m t).2 t = some (((getCount m t).getD 0 + 1) % 2 ^ 32) := by
  cases h : getCount m t <;> simp [addRecordData, h, getCount_mapInsert_self]

theorem getCount_addRecordData_ne (m : IndexMap) (t u : TableKey) (h : u ≠ t) :
    getCount (addRecordData m t).2 u = getCount m u := by
  cases hc : getCount m t <;> simp [addRecordData, hc, getCount_mapInsert_ne _ _ _ _ h]

theorem occCount_cons_self (x : TableKey) (s : List TableKey) :
    occCount (x :: s) x = occCount s x + 1 := by
  simp [occCount]; omega

theorem occCount_cons_ne (x t : TableKey) (s : List TableKey) (h : x ≠ t) :
    occCount (x :: s) t = occCount s t := by
  simp [occCount, h]

theorem getCount_applyCalls (s : List TableKey) (m : IndexMap) (t : TableKey)
    (hc : ∀ v, getCount m t = some v → v < 2 ^ 32) :
    getCount (applyCalls m s) t =
      match getCount m t with
      | some c => some ((c + occCount s t) % 2 ^ 32)
      | none => if occCount s t = 0 then none else some (occCount s t % 2 ^ 32) := by
  induction s generalizing m with
  | nil =>
    cases h : getCount m t with
    | none => simp [applyCalls, occCount, h]
    | some c =>
      have hlt : c < 2 ^ 32 := hc c h
      simp only [applyCalls, List.foldl_nil, occCount, h]
      congr 1
      omega
  | cons x s ih =>
    have hstep : applyCalls m (x :: s) = applyCalls (addRecordData m x).2 s := rfl
    rw [hstep]
    by_cases hx : x = t
    · subst hx
      have hself := getCount_addRecordData_self m x
      have hmod : ((getCount m x).getD 0 + 1) % 2 ^ 32 < 2 ^ 32 :=
        Nat.mod_lt _ (by norm_num)
      have hc' : ∀ v, getCount (addRecordData m x).2 x = some v → v < 2 ^ 32 := by
        intro v hv
        rw [hself] at hv
        injection hv with hv
        omega
      rw [ih _ hc', hself, occCount_cons_self]
      cases h : getCount m x with
      | none =>
        simp only [h, Option.getD_none, Nat.mod_add_mod]
        have hne : occCount s x + 1 ≠ 0 := by omega
        rw [if_neg hne]
        congr 1
        omega
      | some c =>
        simp only [h, Option.getD_some, Nat.mod_add_mod]
        congr 1
        omega
    · have hoth := getCount_addRecordData_ne m x t (Ne.symm hx)
      have hc' : ∀ v, getCount (addRecordData m x).2 t = some v → v < 2 ^ 32 := by
        intro v hv; rw [hoth] at hv; exact hc v hv
      rw [ih _ hc', hoth, occCount_cons_ne _ _ _ hx]

theorem getCount_applySeq (s : List TableKey) (t : TableKey) :
    getCount (applySeq s) t =
      if occCount s t = 0 then none else some (occCount s t % 2 ^ 32) := by
  have h := getCount_applyCalls s [] t (by intro v hv; simp [getCount] at hv)
  simpa [applySeq, getCount] using h

theorem occCount_replicate (n : Nat) (t : TableKey) :
    occCount (List.replicate n t) t = n := by
  induction n with
  | zero => simp [occCount]
  | succ k ih => simp [List.replicate, occCount, ih]; omega

/-- C1 (amended): for every table name `T` and every `k` with `1 ≤ k < 2 ^ 32`, in a run
of `add_record(T)` calls starting from the empty counter map with no interleaving
mutation of other tables, the k-th call returns exactly `k` and `get_count(T)` then
returns `k`. (As stated over all `k` the claim fails at `k = 2 ^ 32`, where the `u32`
counter wraps; see the counterexample below.) -/
theorem C1_kth_add_record_returns_k (t : TableKey) (k : Nat) (h1 : 1 ≤ k) (h2 : k < 2 ^ 32) :
    nthReturn t k = k ∧ getCount (applySeq (List.replicate k t)) t = some k := by
  constructor
  · unfold nthReturn
    rw [addRecordData_fst, getCount_applySeq, occCount_replicate]
    by_cases h0 : k - 1 = 0
    · rw [if_pos h0]
      simp only [Option.getD_none]
      omega
    · rw [if_neg h0]
      simp only [Option.getD_some]
      rw [Nat.mod_add_mod]
      omega
  · rw [getCount_applySeq, occCount_replicate, if_neg (by omega)]
    congr 1
    omega

/-- C1 witness: the third `add_record "t"` call returns `3`. -/
theorem C1_kth_add_record_returns_k_w :
    nthReturn exTable 3 = 3 ∧ getCount (applySeq (List.replicate 3 exTable)) exTable = some 3 :=
  C1_kth_add_record_returns_k exTable 3 (by decide) (by norm_num)

/-- C1 counterexample: at `k = 2 ^ 32` the k-th `add_record` call returns `0`
(the `u32` counter wraps), not `k`, refuting the unbounded claim. -/
theorem C1_kth_add_record_wraps :
    ¬ (nthReturn exTable (2 ^ 32) = 2 ^ 32 ∧
       getCount (applySeq (List.replicate (2 ^ 32) exTable)) exTable = some (2 ^ 32)) := by
  have hval : nthReturn exTable (2 ^ 32) = 0 := by
    rw [nthReturn, addRecordData_fst, getCount_applySeq, occCount_replicate,
        if_neg (by norm_num : ¬ (2 ^ 32 - 1 = 0)), Option.getD_some, Nat.mod_add_mod]
    norm_num
  intro hcl
  exact absurd hcl.1 (by rw [hval]; norm_num)

/-- C8 (amended): in every state reachable by a sequence of `add_record` calls from the
empty map, every registered table whose number of `add_record` calls is below `2 ^ 32`
has a strictly positive count, and — unconditionally — no entry is ever removed by any
operation: a table registered in a reachable state is still registered after any
further `add_record` call. (Without the bound on the call count, positivity fails once
the `u32` counter wraps to `0` after exactly `2 ^ 32` calls; see the counterexample
below.) -/
theorem C8_counts_positive (s : List TableKey) (t : TableKey) :
    (∀ c, getCount (applySeq s) t = some c → occCount s t < 2 ^ 32 → 0 < c) ∧
    (∀ u, (getCount (applySeq s) t).isSome →
        (getCount (addRecordData (applySeq s) u).2 t).isSome) := by
  constructor
  · intro c hreg hb
    rw [getCount_applySeq] at hreg
    by_cases h0 : occCount s t = 0
    · rw [if_pos h0] at hreg; cases hreg
    · rw [if_neg h0] at hreg
      injection hreg with hreg
      rw [Nat.mod_eq_of_lt hb] at hreg
      omega
  · intro u hsome
    by_cases hu : u = t
    · subst hu; rw [getCount_addRecordData_self]; rfl
    · rw [getCount_addRecordData_ne _ _ _ (Ne.symm hu)]
      exact hsome

/-- C8 witness: after the calls "t", "u", "t" the table "t" has count `2 > 0`, and a
further `add_record "u"` call does not remove its entry. -/
theorem C8_counts_positive_w :
    0 < 2 ∧ (getCount (addRecordData (applySeq [exTable, [117], exTable]) [117]).2 exTable).isSome :=
  ⟨(C8_counts_positive [exTable, [117], exTable] exTable).1 2 (by decide) (by decide),
   (C8_counts_positive [exTable, [117], exTable] exTable).2 [117] (by decide)⟩

/-- C8 counterexample: after exactly `2 ^ 32` calls of `add_record "t"` the stored
count is `0`, refuting strict positivity for all reachable states. -/
theorem C8_zero_after_wrap :
    ¬ ∀ (s : List TableKey) (t : TableKey) (c : Nat),
        getCount (applySeq s) t = some c → 0 < c := by
  have h : getCount (applySeq (List.replicate (2 ^ 32) exTable)) exTable = some 0 := by
    rw [getCount_applySeq, occCount_replicate, if_neg (by norm_num : ¬ (2 ^ 32 = 0)),
        Nat.mod_self]
  intro hall
  exact Nat.lt_irrefl 0 (hall _ _ 0 h)

/-- C9: for distinct table names A ≠ B, `add_record(A)` followed by `add_record(B)`
leaves A's count exactly as the first call set it, and symmetrically the call on A
does not affect B's entry. -/
theorem C9_distinct_tables_frame (m : IndexMap) (a b : TableKey) (hab : a ≠ b) :
    getCount (addRecordData (addRecordData m a).2 b).2 a
      = getCount (addRecordData m a).2 a ∧
    getCount (addRecordData m a).2 b = getCount m b :=
  ⟨getCount_addRecordData_ne _ _ _ hab, getCount_addRecordData_ne _ _ _ (Ne.symm hab)⟩

/-- C9 witness: concrete instance with tables `[0]` and `[1]`. -/
theorem C9_distinct_tables_frame_w :
    getCount (addRecordData (addRecordData [] [0] ).2 [1]).2 [0]
      = getCount (addRecordData [] [0] ).2 [0] ∧
    getCount (addRecordData [] [0] ).2 [1] = getCount [] [1] :=
  C9_distinct_tables_frame [] [0] [1] (by decide)

/-- Little-endian 4-byte encoding of a `u32` (the borsh integer layout; a length is cast
to `u32` before encoding, so only values below `2 ^ 32` are representable). -/
def le32 (n : Nat) : List Nat :=
  [n % 256, n / 256 % 256, n / 256 / 256 % 256, n / 256 / 256 / 256 % 256]

/-- A UTF-8 continuation byte (0x80-0xBF). -/
def utf8Cont (b : Nat) : Bool :=
  0x80 ≤ b && b ≤ 0xBF

/-- UTF-8 lead-byte classification following Rust's `String::from_utf8`: the number of
continuation bytes and the admissible range of the first one (excluding overlong forms
and surrogates); `none` for an invalid lead byte. -/
def utf8Hdr (b : Nat) : Option (Nat × Nat × Nat) :=
  if b ≤ 0x7F then some (0, 0x80, 0xBF)
  else if 0xC2 ≤ b && b ≤ 0xDF then some (1, 0x80, 0xBF)
  else if b = 0xE0 then some (2, 0xA0, 0xBF)
  else if (0xE1 ≤ b && b ≤ 0xEC) || b = 0xEE || b = 0xEF then some (2, 0x80, 0xBF)
  else if b = 0xED then some (2, 0x80, 0x9F)
  else if b = 0xF0 then some (3, 0x90, 0xBF)
  else if 0xF1 ≤ b && b ≤ 0xF3 then some (3, 0x80, 0xBF)
  else if b = 0xF4 then some (3, 0x80, 0x8F)
  else none

/-- Model of Rust's `String::from_utf8` validity check, run by the borsh `String`
decoder on the raw name bytes. -/
def utf8Valid : List Nat → Bool
  | [] => true
  | b :: rest =>
    match utf8Hdr b with
    | none => false
    | some (n, lo, hi) =>
      match n, rest with
      | 0, r => utf8Valid r
      | 1, c1 :: r => (lo ≤ c1 && c1 ≤ hi) && utf8Valid r
      | 2, c1 :: c2 :: r => (lo ≤ c1 && c1 ≤ hi) && utf8Cont c2 && utf8Valid r
      | 3, c1 :: c2 :: c3 :: r => (lo ≤ c1 && c1 ≤ hi) && utf8Cont c2 && utf8Cont c3 && utf8Valid r
      | _, _ => false

/-- Byte-lexicographic strict order on byte strings: the order `Ord`/`cmp` gives Rust
`String`s (UTF-8 code-unit order), used by the borsh `HashMap` serializer to sort keys. -/
def keyLt : TableKey → TableKey → Bool
  | [], [] => false
  | [], _ :: _ => true
  | _ :: _, [] => false
  | a :: as, b :: bs => if a < b then true else if a = b then keyLt as bs else false

/-- Key-sorted snapshot of the map's entries: the borsh `HashMap` serializer collects
the entries and sorts them by key before writing. -/
def sortEntries (m : IndexMap) : IndexMap :=
  List.insertionSort (fun e f => keyLt e.1 f.1 = true) m

/-- Borsh encoding of a `String`: `u32` little-endian byte length, then the bytes. -/
def encodeKey (k : TableKey) : List Nat :=
  le32 k.length ++ k

/-- Borsh encoding of one map entry (`String` key then `u32` value). -/
def encodeEntry (e : TableKey × Nat) : List Nat :=
  encodeKey e.1 ++ le32 e.2

/-- Concatenated encodings of a list of entries. -/
def encodeEntries : IndexMap → List Nat
  | [] => []
  | e :: es => encodeEntry e ++ encodeEntries es

/-- Model of `NautilusIndexData`'s borsh serialization (`try_to_vec` /
`BorshSerialize`): `u32` entry count, then the entries in key-sorted order. -/
def serializeIndexData (m : IndexMap) : List Nat :=
  le32 m.length ++ encodeEntries (sortEntries m)

/-- Model of `NautilusIndex::span` (index.rs lines 179-181): the byte length of the
serialized counter map (`self.data.try_to_vec()?.len()`). -/
def spanData (m : IndexMap) : Nat :=
  (serializeIndexData m).length

/-- Borsh `u32` decoding: read 4 little-endian bytes, fail on a short buffer. -/
def parseU32 : List Nat → Option (Nat × List Nat)
  | b0 :: b1 :: b2 :: b3 :: r => some (b0 + 256 * b1 + 65536 * b2 + 16777216 * b3, r)
  | _ => none

/-- Read exactly `n` raw bytes, fail on a short buffer. -/
def readBytes (n : Nat) (bs : List Nat) : Option (List Nat × List Nat) :=
  if n ≤ bs.length then some (bs.take n, bs.drop n) else none

/-- Borsh `String` decoding: `u32` length, `n` raw bytes, then the UTF-8 validity
check performed by `String::from_utf8`. -/
def parseKey (bs : List Nat) : Option (TableKey × List Nat) := do
  let (n, r) ← parseU32 bs
  let (k, r1) ← readBytes n r
  if utf8Valid k then some (k, r1) else none

/-- Borsh decoding of one map entry. -/
def parseEntry (bs : List Nat) : Option ((TableKey × Nat) × List Nat) := do
  let (k, r) ← parseKey bs
  let (v, r1) ← parseU32 r
  some ((k, v), r1)

/-- Borsh decoding of `n` consecutive map entries. -/
def parseEntries : Nat → List Nat → Option (IndexMap × List Nat)
  | 0, bs => some ([], bs)
  | n + 1, bs => do
    let (e, r) ← parseEntry bs
    let (es, r1) ← parseEntries n r
    some (e :: es, r1)

/-- Model of `NautilusIndexData::try_from_slice` (borsh `HashMap` deserialization,
index.rs line 98): `u32` entry count, that many entries — inserted one by one, as the
borsh `HashMap` decoder does — and failure if bytes remain afterwards (`try_from_slice`
rejects trailing bytes). -/
def deserializeIndexData (bs : List Nat) : Option IndexMap := do
  let (n, r) ← parseU32 bs
  let (es, r1) ← parseEntries n r
  if r1 = [] then some (es.foldl (fun acc e => mapInsert acc e.1 e.2) []) else none

theorem parseU32_le32 (n : Nat) (hn : n < 2 ^ 32) (r : List Nat) :
    parseU32 (le32 n ++ r) = some (n, r) := by
  simp only [le32, List.cons_append, List.nil_append, parseU32]
  congr 1
  congr 1
  omega

theorem readBytes_prefix (k r : List Nat) :
    readBytes k.length (k ++ r) = some (k, r) := by
  rw [readBytes, if_pos (by simp), List.take_left, List.drop_left]

theorem parseKey_encodeKey (k : TableKey) (r : List Nat)
    (hv : utf8Valid k = true) (hl : k.length < 2 ^ 32) :
    parseKey (encodeKey k ++ r) = some (k, r) := by
  rw [encodeKey, List.append_assoc]
  simp [parseKey, parseU32_le32 _ hl, readBytes_prefix, hv]

theorem parseEntry_encodeEntry (e : TableKey × Nat) (r : List Nat)
    (hv : utf8Valid e.1 = true) (hl : e.1.length < 2 ^ 32) (hc : e.2 < 2 ^ 32) :
    parseEntry (encodeEntry e ++ r) = some (e, r) := by
  rw [encodeEntry, List.append_assoc]
  simp [parseEntry, parseKey_encodeKey _ _ hv hl, parseU32_le32 _ hc]

theorem parseEntries_encodeEntries (es : IndexMap) (r : List Nat)
    (h : ∀ e ∈ es, utf8Valid e.1 = true ∧ e.1.length < 2 ^ 32 ∧ e.2 < 2 ^ 32) :
    parseEntries es.length (encodeEntries es ++ r) = some (es, r) := by
  induction es generalizing r with
  | nil => simp [encodeEntries, parseEntries]
  | cons e es ih =>
    obtain ⟨hv, hl, hc⟩ := h e (List.mem_cons_self e es)
    have h' : ∀ f ∈ es, utf8Valid f.1 = true ∧ f.1.length < 2 ^ 32 ∧ f.2 < 2 ^ 32 :=
      fun f hf => h f (List.mem_cons_of_mem e hf)
    rw [List.length_cons, encodeEntries, List.append_assoc]
    simp [parseEntries, parseEntry_encodeEntry e _ hv hl hc, ih r h']

theorem getCount_append (a b : IndexMap) (k : TableKey) :
    getCount (a ++ b) k =
      match getCount a k with
      | some v => some v
      | none => getCount b k := by
  induction a with
  | nil => simp [getCount]
  | cons e rest ih =>
    obtain ⟨k', v'⟩ := e
    by_cases hk : k' = k <;> simp [getCount, hk, ih]

theorem mapInsert_absent (acc : IndexMap) (k : TableKey) (v : Nat)
    (h : getCount acc k = none) :
    mapInsert acc k v = acc ++ [(k, v)] := by
  induction acc with
  | nil => simp [mapInsert]
  | cons e rest ih =>
    obtain ⟨k', v'⟩ := e
    by_cases hk : k' = k
    · rw [getCount, if_pos hk] at h; cases h
    · rw [getCount, if_neg hk] at h
      simp [mapInsert, hk, ih h]

theorem foldl_mapInsert_eq_append (es : IndexMap) : ∀ acc : IndexMap,
    (∀ e ∈ es, getCount acc e.1 = none) → (es.map Prod.fst).Nodup →
    es.foldl (fun a e => mapInsert a e.1 e.2) acc = acc ++ es := by
  induction es with
  | nil => intro acc _ _; simp
  | cons e es ih =>
    intro acc hnone hnd
    rw [List.map_cons, List.nodup_cons] at hnd
    have h1 : getCount acc e.1 = none := hnone e (List.mem_cons_self e es)
    rw [List.foldl_cons, mapInsert_absent acc e.1 e.2 h1]
    have hnone' : ∀ f ∈ es, getCount (acc ++ [(e.1, e.2)]) f.1 = none := by
      intro f hf
      have hne : e.1 ≠ f.1 := by
        intro hcontra
        exact hnd.1 (hcontra ▸ List.mem_map_of_mem Prod.fst hf)
      rw [getCount_append, hnone f (List.mem_cons_of_mem e hf)]
      simp [getCount, hne]
    have := ih (acc ++ [(e.1, e.2)]) hnone' hnd.2
    rw [this]
    simp

theorem getCount_eq_of_perm (m m' : IndexMap) (hp : m.Perm m') (k : TableKey) :
    (m.map Prod.fst).Nodup → getCount m k = getCount m' k := by
  induction hp with
  | nil => intro _; rfl
  | cons x p ih =>
    intro hnd
    rw [List.map_cons, List.nodup_cons] at hnd
    obtain ⟨kx, vx⟩ := x
    by_cases h : kx = k <;> simp [getCount, h, ih hnd.2]
  | swap x y l =>
    intro hnd
    obtain ⟨kx, vx⟩ := x
    obtain ⟨ky, vy⟩ := y
    rw [List.map_cons, List.map_cons, List.nodup_cons] at hnd
    have hyx : ky ≠ kx := by
      intro hcontra
      exact absurd (hcontra ▸ List.mem_cons_self kx _) hnd.1
    by_cases h1 : ky = k
    · subst h1
      simp [getCount, if_neg hyx, Ne.symm hyx]
    · by_cases h2 : kx = k <;> simp [getCount, h1, h2]
  | trans p q ih1 ih2 =>
    intro hnd
    have hmid := (p.map Prod.fst).nodup hnd
    exact (ih1 hnd).trans (ih2 hmid)

/-- Well-formedness of a counter-map value: the properties every state of the source's
`HashMap<String, u32>` has (distinct keys, keys valid UTF-8, `u32` counts), within the
borsh-representable domain (entry count and key byte lengths fit the format's `u32`
length fields). -/
abbrev WFMap (m : IndexMap) : Prop :=
  (m.map Prod.fst).Nodup ∧ m.length < 2 ^ 32 ∧
    ∀ e ∈ m, utf8Valid e.1 = true ∧ e.1.length < 2 ^ 32 ∧ e.2 < 2 ^ 32

/-- C6: for every well-formed counter map `m` — including the empty map and maps with
at least 100 entries — decoding the encoding of `m` succeeds and yields a counter map
logically equal to `m` (same count for every table): `decode(encode(m)) == m`. -/
theorem C6_decode_encode_roundtrip (m : IndexMap) (h : WFMap m) :
    ∃ m', deserializeIndexData (serializeIndexData m) = some m' ∧
      ∀ k, getCount m' k = getCount m k := by
  obtain ⟨hnd, hlen, he⟩ := h
  have hperm : (sortEntries m).Perm m := List.perm_insertionSort _ m
  have hnd2 : ((sortEntries m).map Prod.fst).Nodup :=
    ((hperm.map Prod.fst).symm).nodup hnd
  have he2 : ∀ e ∈ sortEntries m,
      utf8Valid e.1 = true ∧ e.1.length < 2 ^ 32 ∧ e.2 < 2 ^ 32 :=
    fun e hef => he e (hperm.subset hef)
  have hlen2 : (sortEntries m).length = m.length := hperm.length_eq
  have hparse : parseEntries (sortEntries m).length (encodeEntries (sortEntries m) ++ [])
      = some (sortEntries m, []) := parseEntries_encodeEntries _ _ he2
  rw [List.append_nil] at hparse
  have hparse2 : parseEntries m.length (encodeEntries (sortEntries m))
      = some (sortEntries m, []) := by rw [← hlen2]; exact hparse
  refine ⟨sortEntries m, ?_, ?_⟩
  · rw [serializeIndexData]
    simp [deserializeIndexData, parseU32_le32 _ hlen, hparse2,
          foldl_mapInsert_eq_append (sortEntries m) [] (fun e _ => rfl) hnd2]
  · intro k
    exact getCount_eq_of_perm _ _ hperm k hnd2

/-- Concrete 100-entry counter map (keys are the one-byte strings 0x00 … 0x63) used to
witness the round-trip law on a map with at least 100 table entries. -/
def bigM : IndexMap :=
  (List.range 100).map fun i => ([i], i + 1)

/-- C6 witness: the round-trip law holds on the concrete 100-entry map. -/
theorem C6_decode_encode_roundtrip_w :
    ∃ m', deserializeIndexData (serializeIndexData bigM) = some m' ∧
      ∀ k, getCount m' k = getCount bigM k :=
  C6_decode_encode_roundtrip bigM (by decide)

theorem encodeEntries_length (es : IndexMap) :
    (encodeEntries es).length = (es.map fun e => 8 + e.1.length).sum := by
  induction es with
  | nil => simp [encodeEntries]
  | cons e es ih =>
    simp [encodeEntries, encodeEntry, encodeKey, le32, ih]
    omega

/-- C7: `span(m)` (`NautilusIndex::span`, index.rs lines 179-181) equals the exact byte
length of `encode(m)` — in the source `span` is defined as the length of the serialized
bytes, so the equality is definitional; in addition `span` has the closed form
`4 + Σ (8 + byte length of the key)` over the entries, so sizing decisions computed
from `span` cannot disagree with the length of the bytes subsequently written. -/
theorem C7_span_eq_encode_length (m : IndexMap) :
    spanData m = (serializeIndexData m).length ∧
    spanData m = 4 + ((sortEntries m).map fun e => 8 + e.1.length).sum := by
  refine ⟨rfl, ?_⟩
  simp [spanData, serializeIndexData, encodeEntries_length, le32]
  omega

/-- Errors surfaced by the modeled operations: the two `NautilusError` variants raised
by `NautilusIndex::load` (index.rs lines 101, 110), the propagated failure of the
balance transfer, and the propagated failure of serialization into the buffer. -/
inductive NErr where
  | LoadDataFailed (tableName : String) (address : String)
  | DeserializeDataFailed (tableName : String) (address : String)
  | TransferFailed
  | SerializeFailed
deriving DecidableEq

/-- `NautilusIndexData::TABLE_NAME` (index.rs line 54). -/
def indexTableName : String := "nautilus_index"

/-- The modeled on-ledger state of the Index account: its address (as the display
string `account_info.key.to_string()`), its lamports balance (a `u64`), and its raw
byte buffer. -/
structure LedgerAccount where
  key : String
  lamports : Nat
  data : List Nat
deriving DecidableEq

/-- Model of the handle `NautilusIndex` (index.rs lines 77-81): the account reference
plus the in-memory counter map. The `program_id` field is threaded through unchanged
by every modeled operation and plays no role, so it is omitted. -/
structure IndexHandle where
  acct : LedgerAccount
  data : IndexMap
deriving DecidableEq

/-- Model of `NautilusIndex::load` (index.rs lines 94-122). `canBorrow` abstracts
whether `account_info.try_borrow_data()` succeeds (its failure is a runtime borrow
conflict or unreadable account, a condition outside the modeled state). On a borrow
failure the call fails with `LoadDataFailed(table_name, address)`; then the buffer is
deserialized, a failure giving `DeserializeDataFailed(table_name, address)`; on success
the handle holds the decoded counter map. -/
def loadIndex (canBorrow : Bool) (acct : LedgerAccount) : Except NErr IndexHandle :=
  if canBorrow then
    match deserializeIndexData acct.data with
    | some d => .ok ⟨acct, d⟩
    | none => .error (.DeserializeDataFailed indexTableName acct.key)
  else .error (.LoadDataFailed indexTableName acct.key)

/-- Wrapping `u64` subtraction: the release-profile behavior of `a - b` on `u64`
values `a, b < 2 ^ 64`. -/
def u64sub (a b : Nat) : Nat :=
  (a + 2 ^ 64 - b) % 2 ^ 64

/-- The lamports amount `NautilusIndex::add_record` passes to the balance transfer
(index.rs line 141): `self.required_rent()? - self.lamports()`, an unclamped `u64`
subtraction. `required_rent` applies the platform minimum-balance function — modeled
from the spec (§4.4, §6) as a parameter `rent : Nat → Nat` of the byte length — to the
span of the already-mutated counter map. -/
def shortfall (rent : Nat → Nat) (h : IndexHandle) (t : TableKey) : Nat :=
  u64sub (rent (spanData (addRecordData h.data t).2)) h.acct.lamports

/-- Model of `AccountInfo::realloc(new_len, true)` (modeled from the spec §6): resize
the byte buffer to `newLen`, zero-filling newly added bytes. Modeled as total; its
runtime length-growth limit depends on transaction state outside the model. -/
def reallocBytes (buf : List Nat) (newLen : Nat) : List Nat :=
  buf.take newLen ++ List.replicate (newLen - buf.length) 0

/-- Model of borsh `serialize` into a mutable byte slice (index.rs lines 144-145):
write the serialized bytes at the start of the buffer, failing if the buffer is too
short. -/
def writeBytes (src buf : List Nat) : Option (List Nat) :=
  if src.length ≤ buf.length then some (src ++ buf.drop src.length) else none

instance : DecidableEq (Except NErr Nat) := fun x y =>
  match x, y with
  | .ok a, .ok b => decidable_of_iff (a = b) (by simp)
  | .error a, .error b => decidable_of_iff (a = b) (by simp)
  | .ok _, .error _ => isFalse (by simp)
  | .error _, .ok _ => isFalse (by simp)

/-- Result of a modeled `NautilusIndex::add_record` call: the returned count or error,
the handle afterwards (the source takes `&mut self`, so on an early return the handle
keeps the mutations made before the failing step), and the fee payer's balance
afterwards. -/
structure AddRecordOutcome where
  result : Except NErr Nat
  handle : IndexHandle
  payer : Nat
deriving DecidableEq

/-- Model of `NautilusIndex::add_record` (index.rs lines 132-147):
1. mutate the in-memory counter map (line 137);
2. transfer `required_rent - lamports` from the fee payer to the account
   (lines 138-142) — `cpi::system::transfer` is modeled from the spec (§6): atomic,
   failing exactly when the payer's balance is below the amount, otherwise debiting
   the payer and crediting the account;
3. `realloc` the account buffer to the new span (line 143);
4. serialize the updated map into the buffer (lines 144-145).
A failing step aborts the call with its error, keeping the mutations made so far. -/
def addRecord (rent : Nat → Nat) (h : IndexHandle) (payer : Nat) (t : TableKey) :
    AddRecordOutcome :=
  if payer < shortfall rent h t then
    ⟨.error .TransferFailed, ⟨h.acct, (addRecordData h.data t).2⟩, payer⟩
  else
    match writeBytes (serializeIndexData (addRecordData h.data t).2)
        (reallocBytes h.acct.data (spanData (addRecordData h.data t).2)) with
    | some buf2 =>
      ⟨.ok (addRecordData h.data t).1,
       ⟨⟨h.acct.key, h.acct.lamports + shortfall rent h t, buf2⟩,
        (addRecordData h.data t).2⟩,
       payer - shortfall rent h t⟩
    | none =>
      ⟨.error .SerializeFailed,
       ⟨⟨h.acct.key, h.acct.lamports + shortfall rent h t,
         reallocBytes h.acct.data (spanData (addRecordData h.data t).2)⟩,
        (addRecordData h.data t).2⟩,
       payer - shortfall rent h t⟩

theorem reallocBytes_length (buf : List Nat) (n : Nat) :
    (reallocBytes buf n).length = n := by
  simp [reallocBytes]
  omega

theorem writeBytes_exact (src buf : List Nat) (h : buf.length = src.length) :
    writeBytes src buf = some src := by
  rw [writeBytes, if_pos (le_of_eq h.symm)]
  rw [List.drop_eq_nil_of_le (le_of_eq h)]
  simp

theorem addRecord_fail (rent : Nat → Nat) (h : IndexHandle) (payer : Nat) (t : TableKey)
    (hpay : payer < shortfall rent h t) :
    addRecord rent h payer t =
      ⟨.error .TransferFailed, ⟨h.acct, (addRecordData h.data t).2⟩, payer⟩ := by
  unfold addRecord
  rw [if_pos hpay]

theorem addRecord_success (rent : Nat → Nat) (h : IndexHandle) (payer : Nat) (t : TableKey)
    (hpay : ¬ payer < shortfall rent h t) :
    addRecord rent h payer t =
      ⟨.ok (addRecordData h.data t).1,
       ⟨⟨h.acct.key, h.acct.lamports + shortfall rent h t,
         serializeIndexData (addRecordData h.data t).2⟩,
        (addRecordData h.data t).2⟩,
       payer - shortfall rent h t⟩ := by
  unfold addRecord
  rw [if_neg hpay, writeBytes_exact _ _ (by rw [reallocBytes_length]; rfl)]

theorem u64sub_topup (a b : Nat) (ha : a < 2 ^ 64) (hb : b < 2 ^ 64) :
    a ≤ b + u64sub a b := by
  unfold u64sub
  omega

/-- Concrete handle used in concrete instances: empty counter map, empty-map buffer,
zero balance. -/
def exHandle0 : IndexHandle :=
  ⟨⟨"idx", 0, [0, 0, 0, 0]⟩, []⟩

/-- C2 (refuted, code bug): the source computes the transfer amount as the UNCLAMPED
wrapping `u64` subtraction `required_rent - lamports` (index.rs line 141). On an
account whose balance (6) exceeds the required rent (here the platform rent function
returns 5), the claim says the shortfall is `0` (clamped); the code instead wraps
around to `2 ^ 64 - 1`. -/
theorem C2_shortfall_wraps_not_clamped :
    shortfall (fun _ => 5) ⟨⟨"idx", 6, [0, 0, 0, 0]⟩, []⟩ exTable = 2 ^ 64 - 1 ∧
    shortfall (fun _ => 5) ⟨⟨"idx", 6, [0, 0, 0, 0]⟩, []⟩ exTable ≠ 0 := by
  constructor
  · decide
  · decide

/-- C3: after every successful `add_record` call, the Index account's byte-buffer
length equals the span of the post-increment counter map, and the account's balance is
at least the platform minimum balance of that length. Hypotheses state that the
balances involved are `u64` values, as in the source. -/
theorem C3_resize_safety (rent : Nat → Nat) (h : IndexHandle) (payer : Nat) (t : TableKey)
    (c : Nat) (hres : (addRecord rent h payer t).result = .ok c)
    (hlam : h.acct.lamports < 2 ^ 64)
    (hrent : rent (spanData (addRecordData h.data t).2) < 2 ^ 64) :
    (addRecord rent h payer t).handle.acct.data.length
        = spanData (addRecord rent h payer t).handle.data ∧
    rent ((addRecord rent h payer t).handle.acct.data.length)
        ≤ (addRecord rent h payer t).handle.acct.lamports := by
  by_cases hpay : payer < shortfall rent h t
  · rw [addRecord_fail rent h payer t hpay] at hres
    cases hres
  · rw [addRecord_success rent h payer t hpay]
    refine ⟨rfl, ?_⟩
    show rent (spanData (addRecordData h.data t).2)
        ≤ h.acct.lamports + shortfall rent h t
    exact u64sub_topup _ _ hrent hlam

/-- C3 witness: a successful call on the empty-map account with the identity rent
function; the buffer becomes the 13-byte encoding of the one-entry map and the
balance is topped up to exactly 13. -/
theorem C3_resize_safety_w :
    (addRecord (fun n => n) exHandle0 100 exTable).handle.acct.data.length
        = spanData (addRecord (fun n => n) exHandle0 100 exTable).handle.data ∧
    (fun n => n) ((addRecord (fun n => n) exHandle0 100 exTable).handle.acct.data.length)
        ≤ (addRecord (fun n => n) exHandle0 100 exTable).handle.acct.lamports :=
  C3_resize_safety (fun n => n) exHandle0 100 exTable 1 (by decide) (by decide) (by decide)

/-- C4: whenever the fee payer's balance is below the computed shortfall, `add_record`
fails with the transfer error and the Index account — byte buffer and balance — is
exactly as before the call; the payer is not debited either. -/
theorem C4_transfer_failure_no_mutation (rent : Nat → Nat) (h : IndexHandle)
    (payer : Nat) (t : TableKey) (hpay : payer < shortfall rent h t) :
    (addRecord rent h payer t).result = .error .TransferFailed ∧
    (addRecord rent h payer t).handle.acct = h.acct ∧
    (addRecord rent h payer t).payer = payer := by
  rw [addRecord_fail rent h payer t hpay]
  exact ⟨rfl, rfl, rfl⟩

/-- C4 witness: a penniless payer cannot fund the 13-lamport shortfall; the account is
untouched. -/
theorem C4_transfer_failure_no_mutation_w :
    (addRecord (fun n => n) exHandle0 0 exTable).result = .error .TransferFailed ∧
    (addRecord (fun n => n) exHandle0 0 exTable).handle.acct = exHandle0.acct ∧
    (addRecord (fun n => n) exHandle0 0 exTable).payer = 0 :=
  C4_transfer_failure_no_mutation (fun n => n) exHandle0 0 exTable (by decide)

/-- C5: `load` succeeds with a handle holding the decoding of the account's byte
buffer exactly when the buffer can be borrowed and decodes; a borrow failure gives
`LoadDataFailed(table_name, address)`, malformed bytes give
`DeserializeDataFailed(table_name, address)` — in particular an empty byte buffer
gives `DeserializeDataFailed`. -/
theorem C5_load_error_mapping (b : Bool) (acct : LedgerAccount) :
    (∀ hd, loadIndex b acct = .ok hd →
        b = true ∧ deserializeIndexData acct.data = some hd.data ∧ hd.acct = acct) ∧
    (b = true → (deserializeIndexData acct.data).isSome →
        ∃ hd, loadIndex b acct = .ok hd) ∧
    (b = false → loadIndex b acct = .error (.LoadDataFailed indexTableName acct.key)) ∧
    (b = true → deserializeIndexData acct.data = none →
        loadIndex b acct = .error (.DeserializeDataFailed indexTableName acct.key)) ∧
    (b = true → acct.data = [] →
        loadIndex b acct = .error (.DeserializeDataFailed indexTableName acct.key)) := by
  cases b with
  | false =>
    refine ⟨?_, ?_, ?_, ?_, ?_⟩ <;> simp [loadIndex]
  | true =>
    cases hdes : deserializeIndexData acct.data with
    | none =>
      refine ⟨?_, ?_, ?_, ?_, ?_⟩ <;> simp [loadIndex, hdes]
    | some d =>
      refine ⟨?_, ?_, ?_, ?_, ?_⟩
      · intro hd hok
        simp only [loadIndex, if_pos rfl, hdes] at hok
        injection hok with hok
        subst hok
        exact ⟨rfl, rfl, rfl⟩
      · intro _ _
        exact ⟨⟨acct, d⟩, by simp [loadIndex, hdes]⟩
      · intro hcontra; cases hcontra
      · intro _ hcontra; cases hcontra
      · intro _ hdata
        rw [hdata] at hdes
        simp [deserializeIndexData, parseU32] at hdes
    
/-- C5 witness: a borrow failure yields `LoadDataFailed`, and loading an account whose
buffer is empty yields `DeserializeDataFailed`. -/
theorem C5_load_error_mapping_w :
    loadIndex false ⟨"addr", 0, []⟩
        = .error (.LoadDataFailed indexTableName "addr") ∧
    loadIndex true ⟨"addr", 0, []⟩
        = .error (.DeserializeDataFailed indexTableName "addr") :=
  ⟨(C5_load_error_mapping false ⟨"addr", 0, []⟩).2.2.1 rfl,
   (C5_load_error_mapping true ⟨"addr", 0, []⟩).2.2.2.2 rfl rfl⟩

/-- C10: when `add_record` fails, the in-memory counter map of the handle has already
been mutated (the requested table incremented or inserted with count 1) before the
failing step, while the on-ledger byte buffer is unchanged — so the handle's in-memory
state diverges from the account data. The hypothesis states that the stored counts are
`u32` values, as in the source. -/
theorem C10_error_leaves_handle_mutated (rent : Nat → Nat) (h : IndexHandle)
    (payer : Nat) (t : TableKey) (e : NErr)
    (hc : ∀ v, getCount h.data t = some v → v < 2 ^ 32)
    (he : (addRecord rent h payer t).result = .error e) :
    (addRecord rent h payer t).handle.data = (addRecordData h.data t).2 ∧
    (addRecord rent h payer t).handle.acct.data = h.acct.data ∧
    (addRecord rent h payer t).handle.data ≠ h.data := by
  have hne : (addRecordData h.data t).2 ≠ h.data := by
    intro hEq
    have h1 := getCount_addRecordData_self h.data t
    rw [hEq] at h1
    cases hg : getCount h.data t with
    | none =>
      rw [hg] at h1
      cases h1
    | some v =>
      have hvb := hc v hg
      rw [hg] at h1
      injection h1 with h1
      simp only [Option.getD_some] at h1
      omega
  by_cases hpay : payer < shortfall rent h t
  · rw [addRecord_fail rent h payer t hpay]
    exact ⟨rfl, rfl, hne⟩
  · rw [addRecord_success rent h payer t hpay] at he
    cases he

/-- C10 witness: on the failed transfer of the C4 scenario, the handle's map holds the
new entry while the account buffer still holds the encoding of the empty map. -/
theorem C10_error_leaves_handle_mutated_w :
    (addRecord (fun n => n) exHandle0 0 exTable).handle.data
        = (addRecordData exHandle0.data exTable).2 ∧
    (addRecord (fun n => n) exHandle0 0 exTable).handle.acct.data = exHandle0.acct.data ∧
    (addRecord (fun n => n) exHandle0 0 exTable).handle.data ≠ exHandle0.data :=
  C10_error_leaves_handle_mutated (fun n => n) exHandle0 0 exTable .TransferFailed
    (by intro v hv; cases hv) (by decide)
